import Mathlib

/-!
Verification development for the `medley` EBNF library.

Shallow embedding of:
  * the grammar IR and validator (`src/ebnf/grammar.rs`),
  * the line/column tracker and the streaming pull parser (`src/ebnf/parser.rs`),
  * the AST builder and the event-to-tree driver (`src/ast.rs`, `src/ast/builder.rs`).

Strings from the Rust source are modelled as `List Char` where byte arithmetic
matters (terminal payloads, parser input) and as `String` for rule names and
error messages.  Byte offsets use `Char.utf8Size`, matching Rust's UTF-8
`char_indices` / `len_utf8` arithmetic.
-/

namespace Medley

/-- Single quote character (U+0027), used inside error-message literals. -/
def sq : Char := Char.ofNat 39

/-- `src/ebnf/span.rs`: byte span with optional 1-indexed line/column.
The Rust field `end` is called `stop` here (`end` is reserved in Lean). -/
structure Span where
  start : Nat
  stop : Nat
  line : Option Nat
  column : Option Nat
deriving DecidableEq, Repr

/-- `Span::new`. -/
def Span.new (start stop : Nat) : Span :=
  { start := start, stop := stop, line := none, column := none }

/-- `Span::with_position`. -/
def Span.with_position (start stop line column : Nat) : Span :=
  { start := start, stop := stop, line := some line, column := some column }

/-- `TerminalKind` from `src/ebnf/grammar.rs` (string payload as `List Char`). -/
inductive TerminalKind where
  | char (c : Char)
  | str (s : List Char)
deriving DecidableEq, Repr

/-- `CharClass` from `src/ebnf/grammar.rs`. -/
structure CharClass where
  negated : Bool
  chars : List Char
  ranges : List (Char × Char)
  span : Option Span
deriving DecidableEq, Repr

/-- `RepeatQuant` from `src/ebnf/grammar.rs`. -/
structure RepeatQuant where
  min : Nat
  max : Option Nat
deriving DecidableEq, Repr

/-- `Prod` from `src/ebnf/grammar.rs`.  Constructor names:
`seq` = `Seq`, `alt` = `Alt`, `group` = `Group`, `rep` = `Repeat`,
`terminal` = `Terminal`, `cls` = `Class`, `ref` = `Ref`. -/
inductive Prod where
  | seq (items : List Prod)
  | alt (alts : List Prod)
  | group (inner : Prod)
  | rep (item : Prod) (quant : RepeatQuant)
  | terminal (kind : TerminalKind) (span : Option Span)
  | cls (c : CharClass)
  | ref (name : String) (span : Option Span)
deriving Repr

/-- `Rule` from `src/ebnf/grammar.rs`. -/
structure Rule where
  name : String
  production : Prod
  span : Option Span
deriving Repr

/-- `Grammar` from `src/ebnf/grammar.rs` (no `start` field; the first rule is
the start rule, see `Grammar::start_rule`). -/
structure Grammar where
  rules : List Rule
deriving Repr

/-- Rust `str::len` of a terminal payload: total UTF-8 byte length. -/
def byteLen : List Char → Nat
  | [] => 0
  | c :: cs => c.utf8Size + byteLen cs

/-- Lookup in the `HashMap<&str, &Prod>` built by
`self.rules.iter().map(|r| (r.name.as_str(), &r.production)).collect()`:
for duplicate names the last insertion wins, hence the reversed search. -/
def ruleMapGet (g : Grammar) (name : String) : Option Prod :=
  (g.rules.reverse.find? (fun r => r.name == name)).map (fun r => r.production)

mutual

/-- The reference walk of `check_prod` inside `Grammar::validate`:
collects `undefined rule '<name>'` messages in traversal order. -/
def checkProd (defined : List String) : Prod → List String
  | .seq items => checkProdList defined items
  | .alt alts => checkProdList defined alts
  | .group inner => checkProd defined inner
  | .rep item _ => checkProd defined item
  | .terminal _ _ => []
  | .cls _ => []
  | .ref name _ =>
      if defined.contains name then []
      else ["undefined rule " ++ String.mk [sq] ++ name ++ String.mk [sq]]

def checkProdList (defined : List String) : List Prod → List String
  | [] => []
  | p :: ps => checkProd defined p ++ checkProdList defined ps

end

mutual

/-- `Grammar::prod_has_terminal`. -/
def prodHasTerminal : Prod → Bool
  | .seq items => prodHasTerminalList items
  | .alt alts => prodHasTerminalList alts
  | .group inner => prodHasTerminal inner
  | .rep item _ => prodHasTerminal item
  | .terminal _ _ => true
  | .cls _ => true
  | .ref _ _ => false

def prodHasTerminalList : List Prod → Bool
  | [] => false
  | p :: ps => prodHasTerminal p || prodHasTerminalList ps

end

mutual

/-- `Grammar::collect_rule_refs` (references in traversal order). -/
def collectRuleRefs : Prod → List String
  | .seq items => collectRuleRefsList items
  | .alt alts => collectRuleRefsList alts
  | .group inner => collectRuleRefs inner
  | .rep item _ => collectRuleRefs item
  | .terminal _ _ => []
  | .cls _ => []
  | .ref name _ => [name]

def collectRuleRefsList : List Prod → List String
  | [] => []
  | p :: ps => collectRuleRefs p ++ collectRuleRefsList ps

end

mutual

/-- Node count of a production, used only to compute a fuel bound for the
recursion-detection DFS below. -/
def prodSize : Prod → Nat
  | .seq items => 1 + prodSizeList items
  | .alt alts => 1 + prodSizeList alts
  | .group inner => 1 + prodSize inner
  | .rep item _ => 1 + prodSize item
  | .terminal _ _ => 1
  | .cls _ => 1
  | .ref _ _ => 1

def prodSizeList : List Prod → Nat
  | [] => 0
  | p :: ps => prodSize p + prodSizeList ps

end

/-- Fuel bound for the validator's DFS routines.  The Rust recursion depth is
bounded by the number of rules (the `visited`/`visiting` sets grow at each
rule boundary) plus the sizes of the productions walked in between, so this
fuel is never exhausted; the fueled functions below agree with the source on
every run they are evaluated on. -/
def grammarFuel (g : Grammar) : Nat :=
  g.rules.length + g.rules.foldl (fun n r => n + prodSize r.production) 0 + 2

mutual

/-- `Grammar::is_left_recursive`.  `visited` is the `HashSet<String>`,
`path` the ordered `Vec<String>`; both are threaded exactly as the Rust
mutation does (push/insert on entry, pop/remove before returning). -/
def isLeftRecursive (g : Grammar) : Nat → String → List String → List String →
    Bool × List String
  | 0, _, _, path => (false, path)
  | fuel + 1, ruleName, visited, path =>
    let path := path ++ [ruleName]
    if visited.contains ruleName then (true, path)
    else
      match ruleMapGet g ruleName with
      | none => (false, path.dropLast)
      | some prod =>
        let r := checkProdLeftRecursion g fuel prod (ruleName :: visited) path
        (r.1, r.2.dropLast)

/-- `Grammar::check_prod_left_recursion`. -/
def checkProdLeftRecursion (g : Grammar) : Nat → Prod → List String →
    List String → Bool × List String
  | 0, _, _, path => (false, path)
  | fuel + 1, prod, visited, path =>
    match prod with
    | .seq items =>
      match items with
      | [] => (false, path)
      | first :: _ => checkProdLeftRecursion g fuel first visited path
    | .alt alts => altAnyLeftRecursion g fuel alts visited path
    | .group inner => checkProdLeftRecursion g fuel inner visited path
    | .rep item quant =>
      if quant.min = 0 then (false, path)
      else checkProdLeftRecursion g fuel item visited path
    | .terminal _ _ => (false, path)
    | .cls _ => (false, path)
    | .ref name _ => isLeftRecursive g fuel name visited path

/-- The `alts.iter().any(..)` loop in `check_prod_left_recursion`
(left-to-right, short-circuiting). -/
def altAnyLeftRecursion (g : Grammar) : Nat → List Prod → List String →
    List String → Bool × List String
  | 0, _, _, path => (false, path)
  | _, [], _, path => (false, path)
  | fuel + 1, p :: ps, visited, path =>
    let r := checkProdLeftRecursion g fuel p visited path
    if r.1 then (true, r.2) else altAnyLeftRecursion g fuel ps visited r.2

end

/-- `Grammar::check_left_recursion`: fresh `visited`/`path` per rule, error
message built from the path left over after the DFS returns. -/
def checkLeftRecursion (g : Grammar) : List String :=
  g.rules.foldl
    (fun errors rule =>
      let r := isLeftRecursive g (grammarFuel g) rule.name [] []
      if r.1 then
        errors ++ ["left recursion detected: " ++ String.intercalate " -> " r.2]
      else errors)
    []

/-- `Grammar::is_pure_reference_cycle`: true iff no rule in `visiting` has a
terminal anywhere in its production (iteration order over the set is
irrelevant). -/
def isPureReferenceCycle (g : Grammar) (visiting : List String) : Bool :=
  visiting.all fun name =>
    match ruleMapGet g name with
    | some prod => !prodHasTerminal prod
    | none => true

mutual

/-- `Grammar::has_problematic_cycle`.  Returns
`(result, visiting, fully_processed, path)`, threading the three mutable
collections exactly as the Rust code does (early `return true` leaves them
as they stand; the `false` path removes from `visiting`, inserts into
`fully_processed` and pops `path`). -/
def hasProblematicCycle (g : Grammar) : Nat → String → List String →
    List String → List String → Bool × List String × List String × List String
  | 0, _, visiting, fully, path => (false, visiting, fully, path)
  | fuel + 1, ruleName, visiting, fully, path =>
    if fully.contains ruleName then (false, visiting, fully, path)
    else if visiting.contains ruleName then
      (isPureReferenceCycle g visiting, visiting, fully, path ++ [ruleName])
    else
      let path := path ++ [ruleName]
      let visiting := ruleName :: visiting
      match ruleMapGet g ruleName with
      | none => (false, visiting.erase ruleName, fully, path.dropLast)
      | some prod =>
        let r := cycleRefsLoop g fuel (collectRuleRefs prod) visiting fully path
        match r with
        | (true, v, f, p) => (true, v, f, p)
        | (false, v, f, p) => (false, v.erase ruleName, ruleName :: f, p.dropLast)

/-- The `for ref_name in refs` loop of `has_problematic_cycle`. -/
def cycleRefsLoop (g : Grammar) : Nat → List String → List String →
    List String → List String → Bool × List String × List String × List String
  | 0, _, visiting, fully, path => (false, visiting, fully, path)
  | _, [], visiting, fully, path => (false, visiting, fully, path)
  | fuel + 1, r :: rs, visiting, fully, path =>
    match hasProblematicCycle g fuel r visiting fully path with
    | (true, v, f, p) => (true, v, f, p)
    | (false, v, f, p) => cycleRefsLoop g fuel rs v f p

end

/-- `Grammar::check_cyclic_dependencies`: `fully_processed` shared across the
outer loop, `visiting`/`path` fresh per rule. -/
def checkCyclicDependencies (g : Grammar) : List String :=
  (g.rules.foldl
    (fun (acc : List String × List String) rule =>
      if acc.2.contains rule.name then acc
      else
        match hasProblematicCycle g (grammarFuel g) rule.name [] acc.2 [] with
        | (true, _, f, p) =>
          (acc.1 ++ ["cyclic dependency detected: " ++ String.intercalate " -> " p], f)
        | (false, _, f, _) => (acc.1, f))
    ([], [])).1

/-- `Grammar::validate` from `src/ebnf/grammar.rs`. -/
def Grammar.validate (g : Grammar) : List String :=
  if g.rules.isEmpty then ["grammar has no rules"]
  else
    let defined := g.rules.map (fun r => r.name)
    let refErrors := g.rules.foldl (fun errs r => errs ++ checkProd defined r.production) []
    refErrors ++ checkLeftRecursion g ++ checkCyclicDependencies g

/-! ### LineColumnTracker (`src/ebnf/parser.rs`) -/

/-- Byte offsets just past each `'\n'`, as produced by the
`for (i, ch) in input.char_indices() { if ch == '\n' { positions.push(i + 1) } }`
loops in `LineColumnTracker::new` and `LineColumnTracker::extend`;
`base` is the byte offset of the first char of the (remaining) chunk. -/
def nlPositions (base : Nat) : List Char → List Nat
  | [] => []
  | c :: cs =>
    let rest := nlPositions (base + c.utf8Size) cs
    if c = '\n' then (base + 1) :: rest else rest

/-- `LineColumnTracker` state: line-start byte offsets plus total length. -/
structure LineColumnTracker where
  positions : List Nat
  input_len : Nat
deriving DecidableEq, Repr

/-- `LineColumnTracker::new`. -/
def LineColumnTracker.new (input : List Char) : LineColumnTracker :=
  { positions := 0 :: nlPositions 0 input, input_len := byteLen input }

/-- `LineColumnTracker::extend`. -/
def LineColumnTracker.extend (t : LineColumnTracker) (chunk : List Char) :
    LineColumnTracker :=
  { positions := t.positions ++ nlPositions t.input_len chunk,
    input_len := t.input_len + byteLen chunk }

/-- The `line` local of `LineColumnTracker::line_column`.  `Vec::binary_search`
on the strictly increasing `positions` returns `Ok(idx)` with
`positions[idx] == position` when the position is present (so `idx` = number
of strictly smaller entries, and `line = idx + 1`) and `Err(idx)` with
`idx` = insertion point = number of strictly smaller entries otherwise
(`line = idx`); the embedding spells that contract out. -/
def lineIndex (t : LineColumnTracker) (position : Nat) : Nat :=
  if t.positions.contains position
  then t.positions.countP (fun p => decide (p < position)) + 1
  else t.positions.countP (fun p => decide (p < position))

/-- `LineColumnTracker::line_column`: `actual_line` floors the line at 1,
`line_start` is `positions[line - 1]` (0 when `line` is 0, a `usize`), and
`column = (position - line_start) as u32 + 1`.  The function returns
`(u32, u32)`: the `line as u32` cast and the u32 arithmetic of the column are
modelled by explicit `% 2 ^ 32` (release-mode wrapping). -/
def LineColumnTracker.line_column (t : LineColumnTracker) (position : Nat) :
    Nat × Nat :=
  (if lineIndex t position = 0 then 1 else lineIndex t position % 2 ^ 32,
   ((position -
      (if lineIndex t position = 0 then 0
       else t.positions.getD (lineIndex t position - 1) 0)) % 2 ^ 32 + 1) %
     2 ^ 32)

/-- `LineColumnTracker::span_with_position`. -/
def LineColumnTracker.span_with_position (t : LineColumnTracker)
    (start stop : Nat) : Span :=
  let lc := t.line_column start
  Span.with_position start stop lc.1 lc.2

/-! ### Streaming parser engine (`src/ebnf/parser.rs`)

The embedding models `Parser::from_str` on inputs far below the 64 KiB
`MAX_BUFFER_SIZE`: the `Cursor` reader delivers the whole input on the first
`ensure_buffer` call, the sliding window never activates (`window_start = 0`
throughout) and `line_tracker` equals `LineColumnTracker::new(input)`.  All
theorems below evaluate the engine on such inputs. -/

/-- `TokenKind` from `src/ebnf/parser.rs` (`Class` is `cls`). -/
inductive TokenKind where
  | char (c : Char)
  | str (s : List Char)
  | cls (c : Char)
deriving DecidableEq, Repr

/-- `ParseError` from `src/ebnf/parser.rs`. -/
structure ParseError where
  message : String
  position : Nat
  span : Option Span
  rule_context : Option String
  hint : Option String
deriving DecidableEq, Repr

/-- `ParseError::new`. -/
def ParseError.new (message : String) (position : Nat) : ParseError :=
  { message := message, position := position, span := none,
    rule_context := none, hint := none }

/-- `ParseEvent` from `src/ebnf/parser.rs` (`End` is `endR`, `Error` is
`error`). -/
inductive ParseEvent where
  | start (rule : String)
  | endR (rule : String)
  | token (kind : TokenKind) (span : Span)
  | error (e : ParseError)
deriving DecidableEq, Repr

/-- `RefStage` (`End` is `endS`). -/
inductive RefStage where
  | start
  | parsing
  | endS
deriving DecidableEq, Repr

/-- `Frame` from `src/ebnf/parser.rs` (`Repeat` is `repF`, `Class` is
`clsF`, `Ref` is `refF`). -/
inductive Frame where
  | seq (items : List Prod) (idx : Nat)
  | alt (alts : List Prod) (idx : Nat) (saved_pos : Nat)
  | group (inner : Prod)
  | repF (item : Prod) (quant : RepeatQuant) (count : Nat) (saved_pos : Nat)
      (trying : Bool)
  | terminal (kind : TerminalKind)
  | clsF (c : CharClass)
  | refF (name : String) (prod : Prod) (stage : RefStage)
deriving Repr

/-- `Frame::from_prod`.  Note that for `Prod::Ref` the Rust code stores the
`Prod::Ref` node itself in the frame ( `prod` is the match scrutinee), not
the referenced rule's production; the embedding reproduces that. -/
def Frame.fromProd : Prod → Frame
  | .seq items => .seq items 0
  | .alt alts => .alt alts 0 0
  | .group inner => .group inner
  | .rep item quant => .repF item quant 0 0 true
  | .terminal kind _ => .terminal kind
  | .cls c => .clsF c
  | .ref name span => .refF name (.ref name span) .start

/-- Parser state (`Parser` minus the grammar borrow and the reader; the frame
stack is a list with the TOP at the head, mirroring the end of the Rust
`Vec`; `events` is the FIFO queue in emission order). -/
structure PState where
  input : List Char
  pos : Nat
  frames : List Frame
  events : List ParseEvent
  finished : Bool
deriving Repr

/-- Drop `n` bytes from the front of a char list (Rust's `&input[pos..]`
slicing; the engine only ever slices at char boundaries). -/
def dropBytes : List Char → Nat → List Char
  | s, 0 => s
  | [], _ => []
  | c :: rest, n + 1 =>
    if c.utf8Size ≤ n + 1 then dropBytes rest (n + 1 - c.utf8Size)
    else c :: rest

/-- `Parser::peek_char`: next char of `input[pos..]` with its UTF-8 length. -/
def PState.peekChar (st : PState) : Option (Char × Nat) :=
  (dropBytes st.input st.pos).head?.map (fun c => (c, c.utf8Size))

/-- `Parser::fail`: finalize and enqueue the error event with the nearest
still-open rule as context (falling back to the first rule's name). -/
def pfail (g : Grammar) (st : PState) (msg : String) : PState :=
  if st.finished then st
  else
    let ctx :=
      match st.frames.findSome? (fun f =>
        match f with
        | .refF _ _ .endS => none
        | .refF name _ _ => some name
        | _ => none) with
      | some n => n
      | none => ((g.rules.head?.map (fun r => r.name)).getD "")
    { st with
      finished := true
      events := st.events ++
        [.error
          { message := "failed to match: " ++ msg
            position := st.pos
            span := none
            rule_context := some ctx
            hint := none }] }

/-- One `Parser::step`.  Returns `none` exactly where the Rust code would
panic (the unguarded `&alts[0]` index on an empty alternation). -/
def step (g : Grammar) (st : PState) : Option PState :=
  match st.frames with
  | [] => some { st with finished := true }
  | frame :: restFrames =>
    let st := { st with frames := restFrames }
    match frame with
    | .refF name prod stage =>
      match stage with
      | .start =>
        some { st with
          events := st.events ++ [.start name]
          frames := Frame.fromProd prod :: .refF name prod .parsing :: st.frames }
      | .parsing =>
        some { st with frames := .refF name prod .endS :: st.frames }
      | .endS =>
        some { st with events := st.events ++ [.endR name] }
    | .seq items idx =>
      if h : idx < items.length then
        some { st with
          frames := Frame.fromProd (items.get ⟨idx, h⟩) :: .seq items (idx + 1) :: st.frames }
      else some st
    | .alt alts idx saved_pos =>
      if idx = 0 then
        match alts with
        | [] => none
        | a0 :: _ =>
          some { st with frames := Frame.fromProd a0 :: .alt alts 1 st.pos :: st.frames }
      else if h : idx < alts.length then
        some { st with
          pos := saved_pos
          frames := Frame.fromProd (alts.get ⟨idx, h⟩) :: .alt alts (idx + 1) saved_pos :: st.frames }
      else some (pfail g st "no alternative matched")
    | .group inner =>
      some { st with frames := Frame.fromProd inner :: st.frames }
    | .repF item quant count saved_pos trying =>
      if trying then
        let proceed :=
          { st with frames :=
              Frame.fromProd item :: .repF item quant count st.pos false :: st.frames }
        match quant.max with
        | some mx => if mx ≤ count then some st else some proceed
        | none => some proceed
      else
        if saved_pos < st.pos then
          some { st with frames := .repF item quant (count + 1) st.pos true :: st.frames }
        else if count < quant.min then
          some (pfail g st "repeat did not satisfy minimum occurrences")
        else some st
    | .terminal kind =>
      match kind with
      | .char expected =>
        match st.peekChar with
        | some (ch, len) =>
          if ch = expected then
            let start := st.pos
            let pos' := st.pos + len
            some { st with
              pos := pos'
              events := st.events ++
                [.token (.char ch)
                  ((LineColumnTracker.new st.input).span_with_position start pos')] }
          else some (pfail g st "terminal did not match")
        | none => some (pfail g st "terminal did not match")
      | .str expected =>
        if expected.isPrefixOf (dropBytes st.input st.pos) then
          let start := st.pos
          let pos' := st.pos + byteLen expected
          some { st with
            pos := pos'
            events := st.events ++
              [.token (.str expected)
                ((LineColumnTracker.new st.input).span_with_position start pos')] }
        else some (pfail g st "terminal did not match")
    | .clsF c =>
      match st.peekChar with
      | some (ch, len) =>
        let inSet := c.chars.contains ch ||
          c.ranges.any (fun r => decide (r.1 ≤ ch) && decide (ch ≤ r.2))
        let ok := if c.negated then !inSet else inSet
        if ok then
          let start := st.pos
          let pos' := st.pos + len
          some { st with
            pos := pos'
            events := st.events ++
              [.token (.cls ch)
                ((LineColumnTracker.new st.input).span_with_position start pos')] }
        else some (pfail g st "character class did not match")
      | none => some (pfail g st "character class did not match")

/-- `Parser::new` / `Parser::from_str`: initial frame for the first rule, or
an immediate `grammar has no rules` error. -/
def initState (g : Grammar) (input : List Char) : PState :=
  match g.rules with
  | [] =>
    { input := input
      pos := 0
      frames := []
      finished := true
      events := [.error (ParseError.new "grammar has no rules" 0)] }
  | r :: _ =>
    { input := input
      pos := 0
      frames := [.refF r.name r.production .start]
      events := []
      finished := false }

/-- Outcome of draining the event iterator: the Rust caller sees every
enqueued event in order (`done`), the process aborts (`panicked`), or our
step budget ran out (`fuelOut` — never the case in the theorems below). -/
inductive EngineResult where
  | done (events : List ParseEvent)
  | panicked (events : List ParseEvent)
  | fuelOut (events : List ParseEvent)
deriving DecidableEq, Repr

/-- Drive `Parser::next_event` to exhaustion (the `EventIter` adapter /
`parse_str` collection loop): repeatedly `step` until `finished`, then the
whole queue is what the iterator hands out. -/
def runEngine (g : Grammar) : Nat → PState → EngineResult
  | 0, st => .fuelOut st.events
  | fuel + 1, st =>
    if st.finished then .done st.events
    else
      match step g st with
      | none => .panicked st.events
      | some st' => runEngine g fuel st'

/-- `ebnf::parse_str`: all events of a full parse of `input` under `g`. -/
def parseEvents (g : Grammar) (input : List Char) (fuel : Nat) : EngineResult :=
  runEngine g fuel (initState g input)

/-! ### AST (`src/ast/node.rs`, `src/ast/builder.rs`, `src/ast.rs`) -/

/-- `AstNode` (`Rule` is `ruleN`). -/
inductive AstNode where
  | terminal (value : String) (span : Span)
  | sequence (nodes : List AstNode) (span : Span)
  | alternation (nodes : List AstNode) (span : Span)
  | repetition (nodes : List AstNode) (span : Span)
  | ruleN (name : String) (node : AstNode) (span : Span)
deriving Repr

/-- `AstMetadata` (`Default`: all zero / false). -/
structure AstMetadata where
  input_length : Nat
  token_count : Nat
  success : Bool
deriving DecidableEq, Repr

/-- `Ast`. -/
structure Ast where
  root : AstNode
  metadata : AstMetadata
deriving Repr

/-- `AstBuilder` (each stack level is a list of collected nodes; the Rust
`Vec` top is the head here). -/
structure AstBuilder where
  stack : List (List AstNode)
  current_span_stack : List Span
  rule_stack : List String
  metadata : AstMetadata
deriving Repr

/-- `AstBuilder::new`. -/
def AstBuilder.new : AstBuilder :=
  { stack := [[]]
    current_span_stack := []
    rule_stack := []
    metadata := { input_length := 0, token_count := 0, success := false } }

/-- `AstBuilder::add_terminal`: append to the top stack level and bump
`token_count`.  (The Rust `last_mut().unwrap()` cannot fail on builders
reachable from `AstBuilder::new` through the `ast::parse_str` driver, whose
stack always has exactly one level; the empty-stack branch is dead.) -/
def AstBuilder.add_terminal (b : AstBuilder) (value : String) (span : Span) :
    AstBuilder :=
  match b.stack with
  | top :: rest =>
    { b with
      stack := (top ++ [.terminal value span]) :: rest
      metadata := { b.metadata with token_count := b.metadata.token_count + 1 } }
  | [] => b

/-- `AstBuilder::build`. -/
def AstBuilder.build (b : AstBuilder) (input_length : Nat) :
    Except String Ast :=
  match b.stack with
  | [nodes] =>
    match nodes with
    | [] => .error "No nodes in AST"
    | [n] =>
      .ok { root := n
            metadata := { b.metadata with
                          input_length := input_length
                          success := true } }
    | _ =>
      .ok { root := .sequence nodes (Span.new 0 input_length)
            metadata := { b.metadata with
                          input_length := input_length
                          success := true } }
  | s =>
    .error ("Invalid builder state: stack has " ++ toString s.length ++
      " levels, expected 1")

/-- The `match kind` inside `ast::parse_str` turning a token into its text. -/
def tokenValue : TokenKind → String
  | .char ch => String.mk [ch]
  | .str s => String.mk s
  | .cls ch => String.mk [ch]

/-- The event loop of `ast::parse_str`: `Token` feeds `add_terminal`,
`Error` aborts with the formatted message, `Start`/`End` are ignored. -/
def buildFromEvents : List ParseEvent → AstBuilder → Except String AstBuilder
  | [], b => .ok b
  | .token kind span :: rest, b =>
    buildFromEvents rest (b.add_terminal (tokenValue kind) span)
  | .error err :: _, _ =>
    .error ("Parse error at position " ++ toString err.position ++ ": " ++
      err.message)
  | .start _ :: rest, b => buildFromEvents rest b
  | .endR _ :: rest, b => buildFromEvents rest b

/-- `ast::parse_str`: run the engine, fold the events, build.  `none` when
the Rust call would not return normally (engine panic) or our fuel ran out. -/
def astParseStr (g : Grammar) (input : List Char) (fuel : Nat) :
    Option (Except String Ast) :=
  match parseEvents g input fuel with
  | .done events =>
    some
      (match buildFromEvents events AstBuilder.new with
       | .ok b => b.build (byteLen input)
       | .error e => .error e)
  | _ => none

/-- The terminal nodes the driver creates, one per `Token` event, in event
order. -/
def terminalNodesOf (events : List ParseEvent) : List AstNode :=
  events.filterMap fun ev =>
    match ev with
    | .token kind span => some (.terminal (tokenValue kind) span)
    | _ => none

mutual

/-- Number of `Terminal` nodes in a tree. -/
def countTerminals : AstNode → Nat
  | .terminal _ _ => 1
  | .sequence ns _ => countTerminalsList ns
  | .alternation ns _ => countTerminalsList ns
  | .repetition ns _ => countTerminalsList ns
  | .ruleN _ n _ => countTerminals n

def countTerminalsList : List AstNode → Nat
  | [] => 0
  | n :: ns => countTerminals n + countTerminalsList ns

end

mutual

/-- Whether a tree contains any `Rule`, `Alternation` or `Repetition` node. -/
def hasRuleAltRep : AstNode → Bool
  | .terminal _ _ => false
  | .sequence ns _ => hasRuleAltRepList ns
  | .alternation _ _ => true
  | .repetition _ _ => true
  | .ruleN _ _ _ => true

def hasRuleAltRepList : List AstNode → Bool
  | [] => false
  | n :: ns => hasRuleAltRep n || hasRuleAltRepList ns

end

/-- Contiguous-sublist test over char lists. -/
def listInfix (needle : List Char) : List Char → Bool
  | [] => needle.isEmpty
  | c :: cs => needle.isPrefixOf (c :: cs) || listInfix needle cs

/-- Substring test on error messages (`String::contains`). -/
def strContains (hay needle : String) : Bool :=
  listInfix needle.toList hay.toList

/-! ### Concrete grammars used by the claims -/

/-- `start = "x" | "y"` (claims C1, C2). -/
def gXY : Grammar :=
  { rules := [{ name := "start"
                production := .alt [.terminal (.str ['x']) none,
                                    .terminal (.str ['y']) none]
                span := none }] }

/-- `start = "a" "b"` (claims C6, C10 witness). -/
def gAB : Grammar :=
  { rules := [{ name := "start"
                production := .seq [.terminal (.str ['a']) none,
                                    .terminal (.str ['b']) none]
                span := none }] }

/-- `start = "a"*` — `Repeat { min = 0, max = None }` over `"a"` (claim C3). -/
def gStar : Grammar :=
  { rules := [{ name := "start"
                production := .rep (.terminal (.str ['a']) none)
                  { min := 0, max := none }
                span := none }] }

/-- `start = "a"+` — `Repeat { min = 1, max = None }` over `"a"` (claim C7). -/
def gPlus : Grammar :=
  { rules := [{ name := "start"
                production := .rep (.terminal (.str ['a']) none)
                  { min := 1, max := none }
                span := none }] }

/-- A grammar whose single rule is an empty alternation (claim C8).
`Grammar::validate` accepts it; `Parser::step` indexes `alts[0]`. -/
def gEmptyAlt : Grammar :=
  { rules := [{ name := "start", production := .alt [], span := none }] }

/-- `a = b; b = a` — the pure reference cycle of the spec scenario (C4). -/
def gPureCycle : Grammar :=
  { rules := [{ name := "a", production := .ref "b" none, span := none },
              { name := "b", production := .ref "a" none, span := none }] }

/-- `start = "t" a; a = b; b = a` — a pure `Ref` cycle `a ↔ b` (neither rule
contains a terminal) reachable only through `start`, which does contain a
terminal (C4 failing input). -/
def gHiddenCycle : Grammar :=
  { rules := [{ name := "start"
                production := .seq [.terminal (.str ['t']) none, .ref "a" none]
                span := none },
              { name := "a", production := .ref "b" none, span := none },
              { name := "b", production := .ref "a" none, span := none }] }

/-- `a = 'x' a 'y' | 'z'` — a cycle through a terminal-bearing rule, from the
repo's own `cycle_with_terminals_is_not_flagged` test (C4). -/
def gTermCycle : Grammar :=
  { rules := [{ name := "a"
                production := .alt
                  [.seq [.terminal (.char 'x') none, .ref "a" none,
                         .terminal (.char 'y') none],
                   .terminal (.char 'z') none]
                span := none }] }

/-- `expr = expr "+" term | term; term = "x"` (claim C5, left-recursive). -/
def gExprLeft : Grammar :=
  { rules := [{ name := "expr"
                production := .alt
                  [.seq [.ref "expr" none, .terminal (.str ['+']) none,
                         .ref "term" none],
                   .ref "term" none]
                span := none },
              { name := "term"
                production := .terminal (.str ['x']) none
                span := none }] }

/-- `expr = term "+" expr | term; term = "x"` (claim C5, right-recursive). -/
def gExprRight : Grammar :=
  { rules := [{ name := "expr"
                production := .alt
                  [.seq [.ref "term" none, .terminal (.str ['+']) none,
                         .ref "expr" none],
                   .ref "term" none]
                span := none },
              { name := "term"
                production := .terminal (.str ['x']) none
                span := none }] }

/-! ### Tracker invariants and `line_column` properties (claim C9) -/

/-- Every tracker the parser builds: the line-start list is strictly
increasing, starts at 0, and stays within the ingested length. -/
def TrackerInv (t : LineColumnTracker) : Prop :=
  t.positions.Chain' (· < ·) ∧ t.positions.head? = some 0 ∧
    ∀ x ∈ t.positions, x ≤ t.input_len

theorem nlPositions_mem_bounds {x : Nat} :
    ∀ (s : List Char) (base : Nat), x ∈ nlPositions base s →
      base < x ∧ x ≤ base + byteLen s := by
  intro s
  induction s with
  | nil => intro base h; simp [nlPositions] at h
  | cons c cs ih =>
    intro base h
    have hsz : 0 < c.utf8Size := Char.utf8Size_pos c
    simp only [nlPositions, byteLen] at h ⊢
    by_cases hc : c = '\n'
    · subst hc
      simp only [if_pos rfl] at h
      rcases List.mem_cons.mp h with h | h
      · omega
      · have := ih _ h
        omega
    · simp only [if_neg hc] at h
      have := ih _ h
      omega

theorem mem_of_head?_eq {y : Nat} {l : List Nat} (h : l.head? = some y) :
    y ∈ l := by
  cases l with
  | nil => simp at h
  | cons a tl => simp at h; simp [h]

theorem nlPositions_chain' :
    ∀ (s : List Char) (base : Nat), (nlPositions base s).Chain' (· < ·) := by
  intro s
  induction s with
  | nil => intro base; simp [nlPositions]
  | cons c cs ih =>
    intro base
    simp only [nlPositions]
    by_cases hc : c = '\n'
    · subst hc
      simp only [if_pos rfl]
      refine List.chain'_cons'.mpr ⟨?_, ih _⟩
      intro y hy
      cases hhead : (nlPositions (base + Char.utf8Size '\n') cs).head? with
      | none => rw [hhead] at hy; simp at hy
      | some z =>
        rw [hhead] at hy
        simp at hy
        subst hy
        have hmem := mem_of_head?_eq hhead
        have := (nlPositions_mem_bounds cs _ hmem).1
        have hone : Char.utf8Size '\n' = 1 := by decide
        omega
    · simp only [if_neg hc]
      exact ih _

theorem byteLen_nonneg_mem {x : Nat} {s : List Char} {base : Nat}
    (h : x ∈ nlPositions base s) : x ≤ base + byteLen s :=
  (nlPositions_mem_bounds s base h).2

theorem trackerInv_new (input : List Char) :
    TrackerInv (LineColumnTracker.new input) := by
  refine ⟨?_, rfl, ?_⟩
  · refine List.chain'_cons'.mpr ⟨?_, nlPositions_chain' input 0⟩
    intro y hy
    have hmem : y ∈ nlPositions 0 input := by
      cases hhead : (nlPositions 0 input).head? with
      | none => rw [hhead] at hy; simp at hy
      | some z =>
        rw [hhead] at hy
        simp at hy
        subst hy
        exact mem_of_head?_eq hhead
    exact (nlPositions_mem_bounds input 0 hmem).1
  · intro x hx
    simp only [LineColumnTracker.new] at hx ⊢
    rcases List.mem_cons.mp hx with rfl | hx
    · exact Nat.zero_le _
    · have := (nlPositions_mem_bounds input 0 hx).2
      omega

theorem trackerInv_extend {t : LineColumnTracker} (chunk : List Char)
    (h : TrackerInv t) : TrackerInv (t.extend chunk) := by
  obtain ⟨hchain, hhead, hbound⟩ := h
  refine ⟨?_, ?_, ?_⟩
  · refine List.Chain'.append hchain (nlPositions_chain' chunk t.input_len) ?_
    intro x hx y hy
    have hxmem : x ∈ t.positions := by
      cases hlast : t.positions.getLast? with
      | none => rw [hlast] at hx; simp at hx
      | some z =>
        rw [hlast] at hx
        simp at hx
        subst hx
        exact List.mem_of_mem_getLast? hlast
    have hymem : y ∈ nlPositions t.input_len chunk := by
      cases hhy : (nlPositions t.input_len chunk).head? with
      | none => rw [hhy] at hy; simp at hy
      | some z =>
        rw [hhy] at hy
        simp at hy
        subst hy
        exact mem_of_head?_eq hhy
    have h1 := hbound x hxmem
    have h2 := (nlPositions_mem_bounds chunk t.input_len hymem).1
    omega
  · simp only [LineColumnTracker.extend]
    cases hpos : t.positions with
    | nil => rw [hpos] at hhead; simp at hhead
    | cons a tl =>
      rw [hpos] at hhead
      simp at hhead
      simp [hhead]
  · intro x hx
    simp only [LineColumnTracker.extend] at hx ⊢
    rcases List.mem_append.mp hx with hx | hx
    · have := hbound x hx; omega
    · have := (nlPositions_mem_bounds chunk t.input_len hx).2
      omega

/-- A tracker obtained by ingesting `s` at construction and then streaming in
further `chunks` (exactly how the engine's `ensure_buffer` drives
`LineColumnTracker::extend`). -/
def trackerOf (s : List Char) (chunks : List (List Char)) : LineColumnTracker :=
  chunks.foldl LineColumnTracker.extend (LineColumnTracker.new s)

theorem trackerInv_foldl :
    ∀ (chunks : List (List Char)) (t : LineColumnTracker), TrackerInv t →
      TrackerInv (chunks.foldl LineColumnTracker.extend t) := by
  intro chunks
  induction chunks with
  | nil => intro t h; simpa using h
  | cons c cs ih =>
    intro t h
    exact ih _ (trackerInv_extend c h)

theorem trackerInv_trackerOf (s : List Char) (chunks : List (List Char)) :
    TrackerInv (trackerOf s chunks) :=
  trackerInv_foldl chunks _ (trackerInv_new s)

theorem countP_le_of_imp {l : List Nat} {p q : Nat → Bool}
    (h : ∀ a ∈ l, p a = true → q a = true) : l.countP p ≤ l.countP q := by
  induction l with
  | nil => simp
  | cons a tl ih =>
    have h1 : ∀ b ∈ tl, p b = true → q b = true := fun b hb => h b (by simp [hb])
    have h2 := h a (by simp)
    simp only [List.countP_cons]
    cases hp : p a with
    | false =>
      cases hq : q a with
      | false => simpa using ih h1
      | true => have := ih h1; simp; omega
    | true =>
      have hq := h2 hp
      simp [hq]
      exact ih h1

theorem countP_lt_of_witness {p q : Nat → Bool} :
    ∀ {l : List Nat} {b : Nat}, b ∈ l → p b = false → q b = true →
      (∀ a ∈ l, p a = true → q a = true) → l.countP p < l.countP q := by
  intro l
  induction l with
  | nil => intro b hb; simp at hb
  | cons a tl ih =>
    intro b hb hpb hqb h
    have h1 : ∀ x ∈ tl, p x = true → q x = true := fun x hx => h x (by simp [hx])
    simp only [List.countP_cons]
    rcases List.mem_cons.mp hb with rfl | hbtl
    · have hle := countP_le_of_imp h1
      simp [hpb, hqb]
      omega
    · have hlt := ih hbtl hpb hqb h1
      have h2 := h a (by simp)
      cases hp : p a with
      | false =>
        cases hq : q a with
        | false => simp; omega
        | true => simp; omega
      | true =>
        have hq := h2 hp
        simp [hq]
        omega

theorem countP_le_split (l : List Nat) (pos : Nat) :
    l.countP (fun p => decide (p ≤ pos)) =
      l.countP (fun p => decide (p < pos)) +
      l.countP (fun p => decide (p = pos)) := by
  induction l with
  | nil => simp
  | cons a tl ih =>
    simp only [List.countP_cons]
    rcases Nat.lt_trichotomy a pos with hlt | heq | hgt
    · simp [Nat.le_of_lt hlt, hlt, Nat.ne_of_lt hlt]; omega
    · subst heq; simp; omega
    · have h1 : ¬a ≤ pos := by omega
      have h2 : ¬a < pos := by omega
      have h3 : a ≠ pos := by omega
      simp [h1, h2, h3]; omega

theorem countP_eq_zero_of_not_mem {l : List Nat} {pos : Nat} (h : pos ∉ l) :
    l.countP (fun p => decide (p = pos)) = 0 := by
  refine List.countP_eq_zero.mpr ?_
  intro a ha
  simp only [decide_eq_true_eq]
  rintro rfl
  exact h ha

theorem countP_eq_one_of_mem :
    ∀ {l : List Nat} {pos : Nat}, l.Pairwise (· < ·) → pos ∈ l →
      l.countP (fun p => decide (p = pos)) = 1 := by
  intro l
  induction l with
  | nil => intro pos _ h; simp at h
  | cons a tl ih =>
    intro pos hp hm
    have hlt : ∀ x ∈ tl, a < x := fun x hx => (List.pairwise_cons.mp hp).1 x hx
    have htail : tl.Pairwise (· < ·) := (List.pairwise_cons.mp hp).2
    simp only [List.countP_cons]
    rcases List.mem_cons.mp hm with rfl | hmtl
    · have hnot : pos ∉ tl := fun hx => absurd (hlt pos hx) (Nat.lt_irrefl pos)
      simp [countP_eq_zero_of_not_mem hnot]
    · have hne : a ≠ pos := Nat.ne_of_lt (hlt pos hmtl)
      simp [hne, ih htail hmtl]

theorem getD_countP_lt :
    ∀ {l : List Nat} {pos : Nat}, l.Pairwise (· < ·) → pos ∈ l →
      l.getD (l.countP (fun p => decide (p < pos))) 0 = pos := by
  intro l
  induction l with
  | nil => intro pos _ h; simp at h
  | cons a tl ih =>
    intro pos hp hm
    have hlt : ∀ x ∈ tl, a < x := fun x hx => (List.pairwise_cons.mp hp).1 x hx
    have htail : tl.Pairwise (· < ·) := (List.pairwise_cons.mp hp).2
    simp only [List.countP_cons]
    rcases List.mem_cons.mp hm with rfl | hmtl
    · have hzero : tl.countP (fun p => decide (p < pos)) = 0 := by
        refine List.countP_eq_zero.mpr ?_
        intro x hx
        simp only [decide_eq_true_eq]
        exact fun hxl => absurd (hlt x hx) (by omega)
      simp [hzero]
    · have halt : a < pos := hlt pos hmtl
      have : (tl.countP (fun p => decide (p < pos)) + if decide (a < pos) = true then 1 else 0)
          = tl.countP (fun p => decide (p < pos)) + 1 := by simp [halt]
      rw [this]
      simpa using ih htail hmtl

theorem positions_pairwise {t : LineColumnTracker} (h : TrackerInv t) :
    t.positions.Pairwise (· < ·) :=
  List.chain'_iff_pairwise.mp h.1

theorem zero_mem_positions {t : LineColumnTracker} (h : TrackerInv t) :
    0 ∈ t.positions :=
  mem_of_head?_eq h.2.1

/-- `contains` agrees with membership on `List Nat`. -/
theorem contains_iff_mem (l : List Nat) (x : Nat) :
    l.contains x = true ↔ x ∈ l :=
  List.elem_iff

/-- Under the tracker invariant, `line` (the binary-search result) equals the
number of line starts at or before `pos`, and is at least 1. -/
theorem lineIndex_eq_countP_le {t : LineColumnTracker} (pos : Nat)
    (h : TrackerInv t) :
    lineIndex t pos = t.positions.countP (fun p => decide (p ≤ pos)) ∧
      1 ≤ lineIndex t pos := by
  have hp := positions_pairwise h
  have hsplit := countP_le_split t.positions pos
  by_cases hmem : pos ∈ t.positions
  · have hc : t.positions.contains pos = true := (contains_iff_mem _ _).mpr hmem
    have hone := countP_eq_one_of_mem hp hmem
    simp only [lineIndex, hc, if_true]
    omega
  · have hc : t.positions.contains pos = false := by
      cases hch : t.positions.contains pos with
      | false => rfl
      | true => exact absurd ((contains_iff_mem _ _).mp hch) hmem
    have hzero := countP_eq_zero_of_not_mem hmem
    have hposmem := zero_mem_positions h
    have hne : pos ≠ 0 := fun hz => hmem (hz ▸ hposmem)
    have hcount : 0 < t.positions.countP (fun p => decide (p < pos)) :=
      List.countP_pos_iff.mpr ⟨0, hposmem, by simpa using Nat.pos_of_ne_zero hne⟩
    have hval : lineIndex t pos = t.positions.countP (fun p => decide (p < pos)) := by
      simp [lineIndex, hc, hmem]
    rw [hval]
    omega

/-- Under the tracker invariant, when the tracker records fewer than `2^32`
line starts (so the `line as u32` cast does not truncate), the returned line
number equals the number of line starts at or before `pos`, and is at
least 1. -/
theorem line_column_fst {t : LineColumnTracker} (pos : Nat)
    (h : TrackerInv t) (hlen : t.positions.length < 2 ^ 32) :
    (t.line_column pos).1 = t.positions.countP (fun p => decide (p ≤ pos)) ∧
      1 ≤ (t.line_column pos).1 := by
  obtain ⟨heq, hge⟩ := lineIndex_eq_countP_le pos h
  have hle : lineIndex t pos ≤ t.positions.length := by
    rw [heq]
    exact List.countP_le_length _
  have hmod : lineIndex t pos % 2 ^ 32 = lineIndex t pos :=
    Nat.mod_eq_of_lt (Nat.lt_of_le_of_lt hle hlen)
  have hnz : ¬(lineIndex t pos = 0) := by omega
  simp only [LineColumnTracker.line_column, hnz, if_false, hmod]
  exact ⟨heq, hge⟩

/-- When `pos + 1` fits in u32 the column arithmetic does not wrap, and the
column (`pos − line_start + 1`) is at least 1. -/
theorem line_column_snd_pos (t : LineColumnTracker) (pos : Nat)
    (hpos : pos + 1 < 2 ^ 32) :
    1 ≤ (t.line_column pos).2 := by
  simp only [LineColumnTracker.line_column]
  have hsub : pos -
      (if lineIndex t pos = 0 then 0
       else t.positions.getD (lineIndex t pos - 1) 0) ≤ pos := Nat.sub_le _ _
  omega

/-- At a recorded line start the column is 1 (the subtraction yields 0, and
`(0 % 2^32 + 1) % 2^32 = 1` — no wrap regardless of `pos`). -/
theorem line_column_col_one {t : LineColumnTracker} (pos : Nat)
    (h : TrackerInv t) (hmem : pos ∈ t.positions) :
    (t.line_column pos).2 = 1 := by
  have hp := positions_pairwise h
  have hc : t.positions.contains pos = true := (contains_iff_mem _ _).mpr hmem
  have hget := getD_countP_lt hp hmem
  have hidx : lineIndex t pos =
      t.positions.countP (fun p => decide (p < pos)) + 1 := by
    simp [lineIndex, hc, hmem]
  simp only [LineColumnTracker.line_column, hidx, Nat.add_sub_cancel]
  simp only [Nat.succ_ne_zero, if_false, hget]
  simp [Nat.sub_self]

/-! ### Driver/builder facts (claim C10) -/

/-- Folding events into a one-level builder keeps one level, appends exactly
the terminal nodes of the `Token` events in order, and counts them. -/
theorem buildFromEvents_ok :
    ∀ (events : List ParseEvent) (acc : List AstNode) (css : List Span)
      (rs : List String) (m : AstMetadata) (b : AstBuilder),
      buildFromEvents events
        { stack := [acc], current_span_stack := css, rule_stack := rs,
          metadata := m } = .ok b →
      b = { stack := [acc ++ terminalNodesOf events]
            current_span_stack := css
            rule_stack := rs
            metadata := { m with
              token_count := m.token_count + (terminalNodesOf events).length } } := by
  intro events
  induction events with
  | nil =>
    intro acc css rs m b h
    simp only [buildFromEvents, Except.ok.injEq] at h
    subst h
    simp [terminalNodesOf]
  | cons ev rest ih =>
    intro acc css rs m b h
    cases ev with
    | token kind span =>
      simp only [buildFromEvents, AstBuilder.add_terminal] at h
      have hb := ih (acc ++ [.terminal (tokenValue kind) span]) css rs
        { m with token_count := m.token_count + 1 } b h
      rw [hb]
      simp only [terminalNodesOf, List.filterMap_cons]
      simp [List.append_assoc]
      omega
    | error err => simp [buildFromEvents] at h
    | start r => exact ih acc css rs m b h
    | endR r => exact ih acc css rs m b h

/-- Every node the driver collects is a `Terminal` leaf: it contributes one
terminal and no `Rule`/`Alternation`/`Repetition` node. -/
theorem terminalNodesOf_shape (events : List ParseEvent) :
    ∀ n ∈ terminalNodesOf events,
      countTerminals n = 1 ∧ hasRuleAltRep n = false := by
  intro n hn
  simp only [terminalNodesOf, List.mem_filterMap] at hn
  obtain ⟨ev, _, hev⟩ := hn
  cases ev with
  | token kind span =>
    simp at hev
    subst hev
    exact ⟨rfl, rfl⟩
  | start r => simp at hev
  | endR r => simp at hev
  | error e => simp at hev

theorem countTerminalsList_eq_length :
    ∀ (ns : List AstNode), (∀ n ∈ ns, countTerminals n = 1) →
      countTerminalsList ns = ns.length := by
  intro ns
  induction ns with
  | nil => intro _; rfl
  | cons n tl ih =>
    intro h
    have h1 := h n (by simp)
    have h2 : ∀ x ∈ tl, countTerminals x = 1 := fun x hx => h x (by simp [hx])
    simp [countTerminalsList, h1, ih h2]
    omega

theorem hasRuleAltRepList_false :
    ∀ (ns : List AstNode), (∀ n ∈ ns, hasRuleAltRep n = false) →
      hasRuleAltRepList ns = false := by
  intro ns
  induction ns with
  | nil => intro _; rfl
  | cons n tl ih =>
    intro h
    have h1 := h n (by simp)
    have h2 : ∀ x ∈ tl, hasRuleAltRep x = false := fun x hx => h x (by simp [hx])
    simp [hasRuleAltRepList, h1, ih h2]

/-! ### Claim theorems -/

theorem nlPositions_replicate_a :
    ∀ (n base : Nat), nlPositions base (List.replicate n 'a') = [] := by
  intro n
  induction n with
  | zero => intro base; rfl
  | succ k ih =>
    intro base
    rw [List.replicate_succ]
    show (if 'a' = '\n'
      then (base + 1) :: nlPositions (base + Char.utf8Size 'a') (List.replicate k 'a')
      else nlPositions (base + Char.utf8Size 'a') (List.replicate k 'a')) = []
    rw [if_neg (by decide)]
    exact ih _

theorem byteLen_replicate_a :
    ∀ n : Nat, byteLen (List.replicate n 'a') = n := by
  intro n
  induction n with
  | zero => rfl
  | succ k ih =>
    rw [List.replicate_succ]
    show Char.utf8Size 'a' + byteLen (List.replicate k 'a') = k + 1
    rw [ih]
    have h : Char.utf8Size 'a' = 1 := by decide
    omega

/-- C9 counterexample: the u32 column arithmetic wraps.  Ingesting a single
line of `2^32 − 1` bytes of `'a'` (so the input genuinely has byte position
`2^32 − 1`; no newline is recorded, `positions = [0]`), `line_column` at that
position computes `(2^32 − 1 − 0) as u32 + 1`, which wraps to 0 — refuting
the claimed `column ≥ 1`. -/
theorem c9_u32_wrap_counterexample :
    byteLen (List.replicate (2 ^ 32 - 1) 'a') = 2 ^ 32 - 1 ∧
    ((trackerOf (List.replicate (2 ^ 32 - 1) 'a') []).line_column
      (2 ^ 32 - 1)).2 = 0 ∧
    ¬(1 ≤ ((trackerOf (List.replicate (2 ^ 32 - 1) 'a') []).line_column
      (2 ^ 32 - 1)).2) := by
  have htr : trackerOf (List.replicate (2 ^ 32 - 1) 'a') [] =
      { positions := [0], input_len := 2 ^ 32 - 1 } := by
    show LineColumnTracker.new (List.replicate (2 ^ 32 - 1) 'a') = _
    unfold LineColumnTracker.new
    rw [nlPositions_replicate_a, byteLen_replicate_a]
  refine ⟨byteLen_replicate_a _, ?_, ?_⟩
  · rw [htr]
    decide
  · rw [htr]
    decide

/-- C9 (amended): for every tracker built by ingesting an input
(construction plus any sequence of streamed chunks) and every byte position
`pos`, PROVIDED the u32 casts do not wrap — fewer than `2^32` recorded line
starts (true of any ingestion under 4 GiB) and `pos + 1 < 2^32`:
`line_column pos` returns line ≥ 1 and column ≥ 1; if `pos` is a recorded
line-start offset then the column is 1; the line number is monotonically
non-decreasing in `pos`; and it strictly increases when `pos` crosses a
recorded line-start boundary `b` (`pos < b ≤ q`).  Without the side
conditions the properties fail, see the counterexample above. -/
theorem c9_line_column_no_overflow (s : List Char) (chunks : List (List Char))
    (pos q : Nat)
    (hlen : (trackerOf s chunks).positions.length < 2 ^ 32)
    (hpos : pos + 1 < 2 ^ 32) :
    1 ≤ ((trackerOf s chunks).line_column pos).1 ∧
    1 ≤ ((trackerOf s chunks).line_column pos).2 ∧
    (pos ∈ (trackerOf s chunks).positions →
      ((trackerOf s chunks).line_column pos).2 = 1) ∧
    (pos ≤ q →
      ((trackerOf s chunks).line_column pos).1 ≤
        ((trackerOf s chunks).line_column q).1) ∧
    (∀ b ∈ (trackerOf s chunks).positions, pos < b → b ≤ q →
      ((trackerOf s chunks).line_column pos).1 <
        ((trackerOf s chunks).line_column q).1) := by
  have hinv := trackerInv_trackerOf s chunks
  obtain ⟨hposEq, hposGe⟩ := line_column_fst pos hinv hlen
  obtain ⟨hqEq, _⟩ := line_column_fst q hinv hlen
  refine ⟨hposGe, line_column_snd_pos _ pos hpos, ?_, ?_, ?_⟩
  · intro hmem
    exact line_column_col_one pos hinv hmem
  · intro hle
    rw [hposEq, hqEq]
    refine countP_le_of_imp ?_
    intro a _ ha
    simp only [decide_eq_true_eq] at ha ⊢
    omega
  · intro b hb hpb hbq
    rw [hposEq, hqEq]
    refine countP_lt_of_witness hb ?_ ?_ ?_
    · simp only [decide_eq_false_iff_not]
      omega
    · simp only [decide_eq_true_eq]
      omega
    · intro a _ ha
      simp only [decide_eq_true_eq] at ha ⊢
      omega

/-- Witness for C9 on the concrete ingestion `"a\nb"` with no extra chunks:
both no-overflow hypotheses hold, position 2 is the recorded start of line 2
(column 1), and moving from position 0 to position 2 crosses that boundary,
increasing the line. -/
theorem c9_witness :
    1 ≤ ((trackerOf ['a', '\n', 'b'] []).line_column 2).1 ∧
    ((trackerOf ['a', '\n', 'b'] []).line_column 2).2 = 1 ∧
    ((trackerOf ['a', '\n', 'b'] []).line_column 0).1 <
      ((trackerOf ['a', '\n', 'b'] []).line_column 2).1 := by
  have h2 := c9_line_column_no_overflow ['a', '\n', 'b'] [] 2 2
    (by decide) (by decide)
  have h0 := c9_line_column_no_overflow ['a', '\n', 'b'] [] 0 2
    (by decide) (by decide)
  exact ⟨h2.1, h2.2.2.1 (by decide),
    h0.2.2.2.2 2 (by decide) (by decide) (by decide)⟩

/-- C1: the claim states that for `start = "x" | "y"` on input `"x"` the
stream is `Start, Token(Str "x"), End` with no `Error`.  Evaluating the
engine shows what the code actually does: after the first alternative
succeeds, the `Alt` frame (which cannot tell success from failure) restores
the position and tries `"y"`, whose mismatch finalizes the stream with an
`Error` — so the stream is `Start, Token(Str "x" span 0..1), Error` and no
`End` event is ever emitted. -/
theorem c1_alternation_eval :
    parseEvents gXY ['x'] 50 =
      .done [.start "start",
             .token (.str ['x']) (Span.with_position 0 1 1 1),
             .error { message := "failed to match: terminal did not match"
                      position := 0
                      span := none
                      rule_context := some "start"
                      hint := none }] := by
  decide

/-- C2: the claim states that a frame failure with an ancestor `Alt` holding
remaining alternatives backtracks to it instead of emitting an `Error`.
Evaluating `start = "x" | "y"` on `"y"`: when the first alternative's
terminal fails, the ancestor `Alt` frame still holds the untried `"y"`, yet
`Parser::fail` unconditionally finalizes the stream with an `Error` — no
`Token (Str "y")` is ever produced. -/
theorem c2_fail_no_backtrack_eval :
    parseEvents gXY ['y'] 50 =
      .done [.start "start",
             .error { message := "failed to match: terminal did not match"
                      position := 0
                      span := none
                      rule_context := some "start"
                      hint := none }] := by
  decide

/-- C3: the claim states that any start rule `Repeat{min=0}` succeeds on
empty input with no `Error` and no `Token` events.  For the item
`Terminal "a"` (i.e. `start = "a"*`), the item's failure on empty input
finalizes the stream with an `Error` instead of returning control to the
`Repeat` frame, so the stream does contain an `Error` event. -/
theorem c3_repeat_min0_eval :
    parseEvents gStar [] 50 =
      .done [.start "start",
             .error { message := "failed to match: terminal did not match"
                      position := 0
                      span := none
                      rule_context := some "start"
                      hint := none }] := by
  decide

/-- C4: the claim quantifies over every grammar with a pure-`Ref` cycle.  In
`start = "t" a; a = b; b = a` the rules `a` and `b` form a pure reference
cycle with no terminal anywhere (exhibited by the ref/terminal table below),
yet `validate` reports no "cyclic dependency" error: `is_pure_reference_cycle`
inspects every rule on the DFS `visiting` path — including `start`, which has
a terminal — rather than only the cycle's rules.  The two concrete parts of
the claim do hold: `a = b; b = a` is flagged, and the terminal-bearing cycle
`a = 'x' a 'y' | 'z'` is not. -/
theorem c4_pure_cycle_eval :
    (gHiddenCycle.rules.map
      (fun r => (r.name, collectRuleRefs r.production, prodHasTerminal r.production))
        = [("start", ["a"], true), ("a", ["b"], false), ("b", ["a"], false)]) ∧
    gHiddenCycle.validate.any (fun e => strContains e "cyclic dependency") = false ∧
    gPureCycle.validate.any (fun e => strContains e "cyclic dependency") = true ∧
    gTermCycle.validate.any (fun e => strContains e "cyclic dependency") = false := by
  refine ⟨by decide, by decide, by decide, by decide⟩

/-- C5: `expr = expr "+" term | term; term = "x"` yields a left-recursion
error naming `expr`, and the right-recursive variant
`expr = term "+" expr | term; term = "x"` yields no left-recursion error
(terminals and character classes stop the leftmost-derivation DFS). -/
theorem c5_left_recursion :
    gExprLeft.validate.any
        (fun e => strContains e "left recursion" && strContains e "expr") = true ∧
    gExprRight.validate.any (fun e => strContains e "left recursion") = false := by
  refine ⟨by decide, by decide⟩

/-- C6: `start = "a" "b"` on input `"ab"` emits exactly
`Start(start), Token(Str "a", bytes 0..1), Token(Str "b", bytes 1..2),
End(start)` and nothing else — no `Error`. -/
theorem c6_sequence_events :
    parseEvents gAB ['a', 'b'] 50 =
      .done [.start "start",
             .token (.str ['a']) (Span.with_position 0 1 1 1),
             .token (.str ['b']) (Span.with_position 1 2 1 2),
             .endR "start"] := by
  decide

/-- C7: the claim expects `start = "a"+` on empty input to emit `Start` then
an `Error` whose message contains "repeat" or "minimum".  The engine does
emit `Start` then `Error`, but the message is the item's
"failed to match: terminal did not match" — the
"repeat did not satisfy minimum occurrences" message in `Parser::step` is
unreachable here because the terminal's failure finalizes the stream before
the `Repeat` frame can check its minimum. -/
theorem c7_repeat_min_message_eval :
    parseEvents gPlus [] 50 =
      .done [.start "start",
             .error { message := "failed to match: terminal did not match"
                      position := 0
                      span := none
                      rule_context := some "start"
                      hint := none }] ∧
    strContains "failed to match: terminal did not match" "repeat" = false ∧
    strContains "failed to match: terminal did not match" "minimum" = false := by
  refine ⟨by decide, by decide, by decide⟩

/-- C8: the claim states the engine never panics, explicitly including
grammars with empty `Alternation` productions, which `validate` accepts.
`validate` indeed accepts `start = Alt([])` (empty error list), but stepping
the resulting `Alt` frame evaluates the unguarded `&alts[0]` index — an
out-of-bounds panic — right after the `Start` event. -/
theorem c8_empty_alt_panics :
    gEmptyAlt.validate = [] ∧
    parseEvents gEmptyAlt [] 50 = .panicked [.start "start"] := by
  refine ⟨by decide, by decide⟩

/-- C10: whenever `ast::parse_str` returns `Ok(ast)`, the tree contains no
`Rule`, `Alternation` or `Repetition` node; the root is the single
`Terminal` node when exactly one `Token` event was produced, and otherwise a
`Sequence` whose children are exactly the `Terminal` nodes of the `Token`
events in event order (`Start`/`End` events are discarded); and
`metadata.token_count` equals the number of `Terminal` nodes in the tree. -/
theorem c10_ast_shape (g : Grammar) (input : List Char) (fuel : Nat)
    (ast : Ast) (h : astParseStr g input fuel = some (Except.ok ast)) :
    ∃ events, parseEvents g input fuel = EngineResult.done events ∧
      hasRuleAltRep ast.root = false ∧
      ((terminalNodesOf events).length = 1 →
        terminalNodesOf events = [ast.root]) ∧
      ((terminalNodesOf events).length ≠ 1 →
        ast.root = .sequence (terminalNodesOf events)
          (Span.new 0 (byteLen input))) ∧
      ast.metadata.token_count = countTerminals ast.root ∧
      countTerminals ast.root = (terminalNodesOf events).length := by
  unfold astParseStr at h
  cases hrun : parseEvents g input fuel with
  | panicked es => rw [hrun] at h; simp at h
  | fuelOut es => rw [hrun] at h; simp at h
  | done events =>
    rw [hrun] at h
    simp only [Option.some.injEq] at h
    refine ⟨events, rfl, ?_⟩
    cases hbe : buildFromEvents events AstBuilder.new with
    | error e => rw [hbe] at h; simp at h
    | ok b =>
      rw [hbe] at h
      have hb := buildFromEvents_ok events [] [] [] _ b hbe
      subst hb
      simp only [List.nil_append] at h
      have hshape := terminalNodesOf_shape events
      cases hts : terminalNodesOf events with
      | nil =>
        rw [hts] at h
        simp [AstBuilder.build] at h
      | cons t1 ttl =>
        cases ttl with
        | nil =>
          rw [hts] at h
          simp only [AstBuilder.build, Except.ok.injEq] at h
          subst h
          have h1 := hshape t1 (by rw [hts]; simp)
          refine ⟨h1.2, ?_, ?_, ?_, ?_⟩
          · intro _; rfl
          · intro hne; simp at hne
          · simp [h1.1]
          · simp [h1.1]
        | cons t2 ttl2 =>
          rw [hts] at h
          simp only [AstBuilder.build, Except.ok.injEq] at h
          subst h
          have hall : ∀ n ∈ t1 :: t2 :: ttl2,
              countTerminals n = 1 ∧ hasRuleAltRep n = false := by
            rw [← hts]; exact hshape
          have hcnt := countTerminalsList_eq_length (t1 :: t2 :: ttl2)
            (fun n hn => (hall n hn).1)
          have hrar := hasRuleAltRepList_false (t1 :: t2 :: ttl2)
            (fun n hn => (hall n hn).2)
          refine ⟨?_, ?_, ?_, ?_, ?_⟩
          · simpa [hasRuleAltRep] using hrar
          · intro hlen; simp at hlen
          · intro _; rfl
          · simp [countTerminals, hcnt]
          · simp [countTerminals, hcnt]

/-- The concrete AST `ast::parse_str` builds for `start = "a" "b"` on
`"ab"`. -/
def astAB : Ast :=
  { root := .sequence
      [.terminal "a" (Span.with_position 0 1 1 1),
       .terminal "b" (Span.with_position 1 2 1 2)]
      (Span.new 0 2)
    metadata := { input_length := 2, token_count := 2, success := true } }

/-- Witness for C10 at `start = "a" "b"`, input `"ab"`. -/
theorem c10_witness :
    ∃ events, parseEvents gAB ['a', 'b'] 50 = EngineResult.done events ∧
      hasRuleAltRep astAB.root = false ∧
      ((terminalNodesOf events).length = 1 →
        terminalNodesOf events = [astAB.root]) ∧
      ((terminalNodesOf events).length ≠ 1 →
        astAB.root = .sequence (terminalNodesOf events)
          (Span.new 0 (byteLen ['a', 'b']))) ∧
      astAB.metadata.token_count = countTerminals astAB.root ∧
      countTerminals astAB.root = (terminalNodesOf events).length :=
  c10_ast_shape gAB ['a', 'b'] 50 astAB (by rfl)

end Medley
